import Mathlib

/-!
Verification of rebootpy (xMistt/rebootpy) against its specification.

This file shallowly embeds the parts of the library that the claims are
about, translated from the Python source:

* `rebootpy/party.py`: `MetaBase.set_prop` / `get_prop` / `get_schema`,
  `Patchable.patch`, `DefaultPartyConfig.position_priorities`,
  `PartyBase._update_roles`, `ClientParty.construct_squad_assignments`;
* `rebootpy/auth.py`: `Auth._authenticate`;
* `rebootpy/xmpp.py`: `XMLProcessor._process_presence` /
  `_process_message`, `XMPPClient.restart`.

Python dictionaries are modelled as association lists that keep insertion
order and have unique keys (Python dict semantics); exceptions are
modelled with `Except`; Python values with the inductive `PyValue`.
-/

set_option maxHeartbeats 1000000

namespace Rebootpy

/-- A Python value, covering the value shapes that flow through the
meta-schema code (`None`, `bool`, `int`, `str`, `list`, `dict` with
string keys). -/
inductive PyValue where
  | none : PyValue
  | bool (b : Bool) : PyValue
  | int (n : Int) : PyValue
  | str (s : String) : PyValue
  | list (xs : List PyValue) : PyValue
  | dict (xs : List (String × PyValue)) : PyValue
deriving Repr

mutual

/-- Python `repr()` restricted to `PyValue` (used by `str()` on
containers). For strings we always use single quotes, which is what
CPython produces for strings not containing a single quote. -/
def pyRepr : PyValue → String
  | .none => "None"
  | .bool true => "True"
  | .bool false => "False"
  | .int n => toString n
  | .str s => "\x27" ++ s ++ "\x27"
  | .list xs => "[" ++ pyReprJoin xs ++ "]"
  | .dict xs => "\x7b" ++ pyReprPairsJoin xs ++ "\x7d"

/-- Comma-joined `repr`s of list elements. -/
def pyReprJoin : List PyValue → String
  | [] => ""
  | [x] => pyRepr x
  | x :: y :: rest => pyRepr x ++ ", " ++ pyReprJoin (y :: rest)

/-- Comma-joined `repr`s of dict items. -/
def pyReprPairsJoin : List (String × PyValue) → String
  | [] => ""
  | [(k, v)] => "\x27" ++ k ++ "\x27: " ++ pyRepr v
  | (k, v) :: y :: rest =>
      "\x27" ++ k ++ "\x27: " ++ pyRepr v ++ ", " ++ pyReprPairsJoin (y :: rest)

end

/-- Python `str()` on a `PyValue` (containers fall back to `repr`). -/
def pyStr : PyValue → String
  | .none => "None"
  | .bool true => "True"
  | .bool false => "False"
  | .int n => toString n
  | .str s => s
  | .list xs => pyRepr (.list xs)
  | .dict xs => pyRepr (.dict xs)

/-- JSON string escaping as performed by `json.dumps` for the common
escapes (backslash, double quote, newline, tab, carriage return); other
characters are emitted as-is. -/
def jsonEscapeChar (c : Char) : String :=
  if c = '\\' then "\\\\"
  else if c = '\"' then "\\\""
  else if c = '\n' then "\\n"
  else if c = '\t' then "\\t"
  else if c = '\r' then "\\r"
  else String.singleton c

/-- JSON escaping of a whole string. -/
def jsonEscape (s : String) : String :=
  String.join (s.data.map jsonEscapeChar)

mutual

/-- The serialized form produced by Python `json.dumps` (default
separators) on a `PyValue`. -/
def jsonDumps : PyValue → String
  | .none => "null"
  | .bool true => "true"
  | .bool false => "false"
  | .int n => toString n
  | .str s => "\"" ++ jsonEscape s ++ "\""
  | .list xs => "[" ++ jsonDumpsJoin xs ++ "]"
  | .dict xs => "\x7b" ++ jsonDumpsPairsJoin xs ++ "\x7d"

/-- Comma-joined serializations of list elements. -/
def jsonDumpsJoin : List PyValue → String
  | [] => ""
  | [x] => jsonDumps x
  | x :: y :: rest => jsonDumps x ++ ", " ++ jsonDumpsJoin (y :: rest)

/-- Comma-joined serializations of dict items. -/
def jsonDumpsPairsJoin : List (String × PyValue) → String
  | [] => ""
  | [(k, v)] => "\"" ++ jsonEscape k ++ "\": " ++ jsonDumps v
  | (k, v) :: y :: rest =>
      "\"" ++ jsonEscape k ++ "\": " ++ jsonDumps v ++ ", " ++
        jsonDumpsPairsJoin (y :: rest)

end

/-- Python `str.lower()` (ASCII case folding, which is all the compared
literals need). -/
def pyLower (s : String) : String :=
  String.mk (s.data.map Char.toLower)

/-- Python `str.strip()`: surrounding whitespace removed. -/
def pyStrip (s : String) : String :=
  String.mk
    (((s.data.dropWhile Char.isWhitespace).reverse.dropWhile
        Char.isWhitespace).reverse)

/-- Python `int(value)`: identity on ints, 0/1 on bools, decimal parse on
strings (raising `ValueError` on a non-numeric string), `TypeError` on
`None`, lists and dicts. The parse accepts surrounding whitespace and an
optional leading `+`, like CPython. -/
def pyInt : PyValue → Except String Int
  | .int n => .ok n
  | .bool true => .ok 1
  | .bool false => .ok 0
  | .str s =>
      let t := pyStrip s
      let t := if t.startsWith "+" then t.drop 1 else t
      match t.toInt? with
      | some n => .ok n
      | Option.none => .error "ValueError"
  | .none => .error "TypeError"
  | .list _ => .error "TypeError"
  | .dict _ => .error "TypeError"

/-- A value stored in a `MetaBase.schema` dict. Python stores only `str`
and `int` values there; `json (v)` stands for the Python string
`json.dumps v` while keeping the parse tree, relying on the `json`
module contract that `json.loads` is a left inverse of `json.dumps`. -/
inductive StoredValue where
  | str (s : String)
  | int (n : Int)
  | json (v : PyValue)
deriving Repr

/-- The Python str/int value a `StoredValue` stands for. -/
def storedToPy : StoredValue → PyValue
  | .str s => .str s
  | .int n => .int n
  | .json v => .str (jsonDumps v)

/-- A `MetaBase.schema`: a Python dict from property names to stored
values, as an insertion-ordered association list. -/
abbrev Schema := List (String × StoredValue)

/-- Python dict lookup `d.get(k)`. -/
def dictGet (d : Schema) (k : String) : Option StoredValue :=
  (d.find? (fun e => e.1 = k)).map (fun e => e.2)

/-- Python dict assignment `d[k] = v`: overwrite in place if the key is
present, append otherwise. -/
def dictSet (d : Schema) (k : String) (v : StoredValue) : Schema :=
  if d.any (fun e => e.1 = k) then
    d.map (fun e => if e.1 = k then (k, v) else e)
  else
    d ++ [(k, v)]

/-- `MetaBase.set_prop` (party.py). Dispatches on the last character of
the property name: `j` stores `json.dumps(value)`, `U` stores
`int(value)` (which can raise), anything else stores `str(value)`; with
`raw=True` it always stores `str(value)`. Returns the updated schema
together with the stored value (the Python method returns
`self.schema[prop]`). -/
def set_prop (schema : Schema) (prop : String) (value : PyValue)
    (raw : Bool := false) : Except String (Schema × StoredValue) :=
  if raw then
    let sv := StoredValue.str (pyStr value)
    .ok (dictSet schema prop sv, sv)
  else
    let t := prop.takeRight 1
    if t = "j" then
      let sv := StoredValue.json value
      .ok (dictSet schema prop sv, sv)
    else if t = "U" then
      match pyInt value with
      | .ok n => .ok (dictSet schema prop (StoredValue.int n), StoredValue.int n)
      | .error e => .error e
    else
      let sv := StoredValue.str (pyStr value)
      .ok (dictSet schema prop sv, sv)

/-- `MetaBase.get_prop` (party.py). Dispatches on the last character of
the property name: `b` coerces to a boolean (`False` exactly when the
key is absent or the stored value is a string whose lowercase form is
`"false"`), `j` runs `json.loads` on the stored string (`{}` when
absent; a stored value that is not a `json.dumps` image is not modelled
and yields an error), `U` coerces through `int` (`0` when absent),
anything else through `str` (`""` when absent). -/
def get_prop (schema : Schema) (prop : String) (raw : Bool := false) :
    Except String PyValue :=
  if raw then
    .ok (match dictGet schema prop with
      | Option.none => .none
      | some sv => storedToPy sv)
  else
    let t := prop.takeRight 1
    let v? := dictGet schema prop
    if t = "b" then
      match v? with
      | Option.none => .ok (.bool false)
      | some (.str s) => .ok (.bool (!(pyLower s == "false")))
      | some (.int _) => .ok (.bool true)
      | some (.json v) => .ok (.bool (!(pyLower (jsonDumps v) == "false")))
    else if t = "j" then
      match v? with
      | Option.none => .ok (.dict [])
      | some (.json v) => .ok v
      | some (.str _) => .error "json.loads on a raw-stored string: not modelled"
      | some (.int _) => .error "TypeError"
    else if t = "U" then
      match v? with
      | Option.none => .ok (.int 0)
      | some sv =>
          match pyInt (storedToPy sv) with
          | .ok n => .ok (.int n)
          | .error e => .error e
    else
      match v? with
      | Option.none => .ok (.str "")
      | some sv => .ok (.str (pyStr (storedToPy sv)))

/-! ## `PartyBase._update_roles` (party.py) -/

/-- A party member as far as role bookkeeping is concerned: a user id
and the current role (`None` or `'CAPTAIN'`). -/
structure RosterMember where
  id : String
  role : Option String
deriving DecidableEq, Repr

/-- `PartyMemberBase.update_role`: replaces the member's role. -/
def update_role (m : RosterMember) (r : Option String) : RosterMember :=
  { m with role := r }

/-- `PartyBase._update_roles(new_leader)`: clears the role of every
member of the roster, then sets the role of the member with the leader's
id to `'CAPTAIN'` (in the source the second step mutates the
`new_leader` object; here the leader is identified by id). -/
def update_roles (members : List RosterMember) (new_leader : String) :
    List RosterMember :=
  let cleared := members.map (fun m => update_role m Option.none)
  cleared.map (fun m =>
    if m.id = new_leader then update_role m (some "CAPTAIN") else m)

/-! ## `DefaultPartyConfig.position_priorities` setter (party.py) -/

/-- The `ValueError` message raised by the setter. -/
def positionPrioritiesError : String :=
  "position priorities must include exactly 16 integers ranging from 0-16."

/-- The `position_priorities` property setter: validates that the new
value has exactly 16 entries and contains every integer `0..15`, then
stores it; on failure it raises `ValueError` before assigning, leaving
the stored list unchanged. Returns the stored list after the call
together with the error, if any. -/
def positionPrioritiesSetter (current : List Int) (value : List Int) :
    List Int × Option String :=
  if value.length ≠ 16 then
    (current, some positionPrioritiesError)
  else if !((List.range 16).all (fun i => value.contains (Int.ofNat i))) then
    (current, some positionPrioritiesError)
  else
    (value, Option.none)

/-! ## `Auth._authenticate` (auth.py) -/

/-- The outcome of one call to `authenticate()`. -/
inductive AuthOutcome where
  | success
  | httpError (message_code : String)
  | cancelled
deriving DecidableEq, Repr

/-- What `_authenticate` does overall: returns the result of a
successful `authenticate()`, re-raises an `HTTPException`, or returns
`False` after an `asyncio.CancelledError`. -/
inductive AuthResult where
  | ok
  | raised (message_code : String)
  | returnedFalse
  | fellThrough
deriving DecidableEq, Repr

/-- The two server codes `_authenticate` treats as retryable. -/
def authRetryCodes : List String :=
  ["errors.com.epicgames.account.oauth.exchange_code_not_found",
   "errors.com.epicgames.account.oauth.expired_exchange_code_session"]

/-- `max_attempts` in `Auth._authenticate`. -/
def authMaxAttempts : Nat := 3

/-- The `for i in range(max_attempts)` loop of `Auth._authenticate`,
at iteration `i` with `remaining` iterations left (`remaining =
max_attempts - i`); `outcomes j` is the outcome of the `authenticate()`
call in iteration `j`. A retryable `HTTPException` continues to the next
iteration unless this was the last one, in which case it is re-raised;
every other `HTTPException` is re-raised at once; a cancellation returns
`False`. (`fellThrough` models running off the end of the loop, which
the body never does.) -/
def authGo (outcomes : Nat → AuthOutcome) (i : Nat) : Nat → AuthResult
  | 0 => .fellThrough
  | Nat.succ remaining =>
      match outcomes i with
      | .success => .ok
      | .cancelled => .returnedFalse
      | .httpError c =>
          if c ∈ authRetryCodes then
            if i ≠ authMaxAttempts - 1 then authGo outcomes (i + 1) remaining
            else .raised c
          else .raised c

/-- `Auth._authenticate`: the loop `for i in range(max_attempts)`
started at iteration 0. -/
def authenticateRun (outcomes : Nat → AuthOutcome) : AuthResult :=
  authGo outcomes 0 authMaxAttempts

/-! ## `XMPPClient.restart` (xmpp.py) -/

/-- The transport state of `XMPPClient` that `restart` touches. -/
structure XmppState where
  restarting : Bool
  ready : Bool
  connected : Bool
  authed : Bool
  hasPresenceTask : Bool
  hasPingTask : Bool
  hasWatchdogTask : Bool
  hasWebsocket : Bool
  hasHttpSession : Bool
  hasXmppTask : Bool
deriving DecidableEq, Repr

/-- The externally visible actions `restart` can perform, in order. -/
inductive XmppAction where
  | closeConnection
  | cancelXmppTask
  | runConnect
  | reconnectToParty
deriving DecidableEq, Repr

/-- `XMPPClient._close(close_http=True)`: clears the ready/connected/
authed flags, cancels the background tasks, closes the websocket and
the http session. -/
def xmppClose (st : XmppState) : XmppState :=
  { st with
    ready := false, connected := false, authed := false,
    hasPresenceTask := false, hasPingTask := false,
    hasWatchdogTask := false, hasWebsocket := false,
    hasHttpSession := false }

/-- `XMPPClient.run()`: if an xmpp task is still alive it returns at
once; otherwise it opens a new http session and spawns the connect
task. -/
def xmppRun (st : XmppState) : XmppState :=
  if st.hasXmppTask then st
  else { st with hasHttpSession := true, hasXmppTask := true }

/-- `XMPPClient.restart()`: a no-op while a restart is already in
progress; otherwise tears the connection down (`_close`), cancels the
xmpp task, reconnects (`run`) and resynchronizes the party, clearing
the `_restarting` flag at the end. Returns the new state and the trace
of performed actions. -/
def xmppRestart (st : XmppState) : XmppState × List XmppAction :=
  if st.restarting then
    (st, [])
  else
    let st1 := { st with restarting := true }
    let st2 := xmppClose st1
    let (st3, cancelTrace) :=
      if st2.hasXmppTask then
        ({ st2 with hasXmppTask := false }, [XmppAction.cancelXmppTask])
      else (st2, ([] : List XmppAction))
    let st4 := xmppRun st3
    ({ st4 with restarting := false },
     XmppAction.closeConnection :: cancelTrace ++
       [XmppAction.runConnect, XmppAction.reconnectToParty])

/-! ## `Patchable.patch` (party.py) -/

/-- The outcome of one `do_patch` submission: success, or an
`HTTPException` carrying a `message_code` and (for stale-revision
errors) the corrected revision from `message_vars[1]`. -/
inductive PatchOutcome where
  | success
  | httpError (message_code : String) (corrected : Int)
deriving DecidableEq, Repr

/-- The stale-revision `message_code` checked by `patch`. -/
def staleRevisionCode : String :=
  "errors.com.epicgames.social.party.stale_revision"

/-- The `while True` retry loop of `Patchable.patch`, run against a
finite trace of submission outcomes. Every iteration submits with the
current revision; success increments the revision by one and returns; a
stale-revision `HTTPException` overwrites the revision with the
corrected one from the error payload and loops; any other
`HTTPException` is re-raised. `none` means the trace ran out with the
loop still running. The result carries the final revision. -/
def patchLoop (revision : Int) : List PatchOutcome → Option (Except String Int)
  | [] => Option.none
  | .success :: _ => some (.ok (revision + 1))
  | .httpError code corrected :: rest =>
      if code = staleRevisionCode then patchLoop corrected rest
      else some (.error code)

/-- The revisions the successive `do_patch` submissions are tagged with
(`do_patch` sends `revision=self.revision`), one per outcome in the
trace. -/
def patchSubmissions (revision : Int) : List PatchOutcome → List Int
  | [] => []
  | .success :: _ => [revision]
  | .httpError code corrected :: rest =>
      if code = staleRevisionCode then
        revision :: patchSubmissions corrected rest
      else [revision]

/-- `MetaBase.get_schema(max)`: the first `max` entries of the schema
(`dict(list(self.schema.items())[:max])`); all of it when `max` is
`None`. -/
def get_schema (schema : Schema) (max : Option Nat) : Schema :=
  match max with
  | Option.none => schema
  | some m => schema.take m

/-- Python `del d[k]` wrapped in `try/except KeyError: pass`: removes
the entry with key `k` when present. -/
def dictDelIfPresent (d : Schema) (k : String) : Schema :=
  d.eraseP (fun e => e.1 = k)

/-- The `updated` mapping `Patchable.patch` passes to `do_patch`:
`updated or self.meta.get_schema(max=max_)` (a Python `or`, so an empty
explicit dict also falls back to the schema), with every key of
`deleted` then removed from it. -/
def patchUpdated (schema : Schema) (updated : Option Schema)
    (deleted : List String) (max : Nat := 1) : Schema :=
  let u :=
    match updated with
    | some u => if u.isEmpty then get_schema schema (some max) else u
    | Option.none => get_schema schema (some max)
  deleted.foldl dictDelIfPresent u

/-! ## `XMLProcessor` (xmpp.py) -/

/-- Whether the character list `needle` occurs at the start of `hay`. -/
def charsHasPre : List Char → List Char → Bool
  | [], _ => true
  | _ :: _, [] => false
  | n :: ns, h :: hs => n = h && charsHasPre ns hs

/-- Whether the character list `needle` occurs anywhere in `hay`. -/
def charsHasSub (needle : List Char) : List Char → Bool
  | [] => needle.isEmpty
  | c :: rest => charsHasPre needle (c :: rest) || charsHasSub needle rest

/-- Python `needle in hay` on strings. -/
def strIn (needle hay : String) : Bool :=
  charsHasSub needle.data hay.data

/-- Worker for `charsSplit`: scans the characters one at a time,
accumulating the current chunk in reverse; `skip` counts characters of a
just-matched separator still to be consumed. -/
def charsSplitGo (sep : List Char) : List Char → Nat → List Char →
    List (List Char)
  | [], _, acc => [acc.reverse]
  | _ :: rest, Nat.succ k, acc => charsSplitGo sep rest k acc
  | c :: rest, 0, acc =>
      if sep ≠ [] ∧ charsHasPre sep (c :: rest) = true then
        acc.reverse :: charsSplitGo sep rest (sep.length - 1) []
      else
        charsSplitGo sep rest 0 (c :: acc)

/-- Python `str.split(sep)` on character lists, for a non-empty
separator (an empty separator raises in Python; here it just never
matches). -/
def charsSplit (sep : List Char) (cs : List Char) : List (List Char) :=
  charsSplitGo sep cs 0 []

/-- Python `s.split(sep)`. -/
def pySplit (s : String) (sep : String) : List String :=
  (charsSplit sep.data s.data).map String.mk

/-- A child element of a stanza, as far as the processors look at it:
its (namespace-qualified) tag and its text, which may be absent. -/
structure XmlChild where
  tag : String
  text : Option String
deriving DecidableEq, Repr

/-- A parsed top-level stanza: its attributes and child elements. -/
structure XmlStanza where
  attrs : List (String × String)
  children : List XmlChild
deriving DecidableEq, Repr

/-- `tree.get(k)` on the top-level element. -/
def xmlGet (t : XmlStanza) (k : String) : Option String :=
  (t.attrs.find? (fun e => e.1 = k)).map (fun e => e.2)

/-- `tree.get(k, d)` on the top-level element. -/
def xmlGetD (t : XmlStanza) (k : String) (d : String) : String :=
  (xmlGet t k).getD d

/-- The `for elem in tree` loop of `_process_presence`: the text of the
last child whose tag contains `status`, and the text of the last child
whose tag contains `show` (both start as `None`). -/
def scanChildren (cs : List XmlChild) : Option String × Option String :=
  cs.foldl
    (fun acc e =>
      let acc1 := if strIn "status" e.tag then (e.text, acc.2) else acc
      if strIn "show" e.tag then (acc1.1, e.text) else acc1)
    (Option.none, Option.none)

/-- What `XMLProcessor` returns for a stanza: `unhandled` models the
`return False` paths (the stanza is passed through to aioxmpp), the
other constructors the decoded event tuples. -/
inductive ProcResult where
  | unhandled
  | presence (user_id : String) (platform : String) (type_ : Option String)
      (status : String) (show_ : Option String)
  | message (body : Option String)
deriving DecidableEq, Repr

/-- `XMLProcessor._process_presence`: stanzas whose `type` attribute is
present but neither `available` nor `unavailable` are passed through, as
are stanzas whose `from` contains a hyphen and stanzas without a status
text; otherwise the presence tuple is decoded from `from` and the
`status`/`show` children. Crashes of the source (`from` absent or
malformed at the split step) are `Except.error`. -/
def process_presence (tree : XmlStanza) : Except String ProcResult :=
  let type_ := xmlGet tree "type"
  if type_ ≠ Option.none ∧ type_ ≠ some "available" ∧
      type_ ≠ some "unavailable" then
    .ok .unhandled
  else if (match xmlGet tree "from" with
           | some f => strIn "-" f
           | Option.none => false) then
    .ok .unhandled
  else
    let scanned := scanChildren tree.children
    match scanned.1 with
    | Option.none => .ok .unhandled
    | some status =>
        match xmlGet tree "from" with
        | Option.none => .error "AttributeError"
        | some f =>
            let split := pySplit f "@"
            match split.get? 1 with
            | Option.none => .error "IndexError"
            | some dom =>
                match (pySplit dom ":").get? 2 with
                | Option.none => .error "IndexError"
                | some platform =>
                    .ok (.presence (split.headD "") platform type_ status
                      scanned.2)

/-- The admin identity `_process_message` filters on. -/
def adminJid : String := "xmpp-admin@prod.ol.epicgames.com"

/-- The `for elem in tree ... else` loop of `_process_message`: the text
of the first child whose tag contains `body`, or `none` when there is no
such child (the for-else `return False`). -/
def bodyOf : List XmlChild → Option (Option String)
  | [] => Option.none
  | c :: rest => if strIn "body" c.tag then some c.text else bodyOf rest

/-- `XMLProcessor._process_message`: passes the stanza through unless it
was sent by the admin identity and its `type` is absent or `normal`; a
stanza without a body child is also passed through. -/
def process_message (tree : XmlStanza) : Except String ProcResult :=
  if xmlGetD tree "from" "" ≠ adminJid then
    .ok .unhandled
  else
    let type_ := xmlGet tree "type"
    if type_ ≠ Option.none ∧ type_ ≠ some "normal" then
      .ok .unhandled
    else
      match bodyOf tree.children with
      | Option.none => .ok .unhandled
      | some b => .ok (.message b)

/-! ## `ClientParty.construct_squad_assignments` (party.py) -/

/-- A party member, identified by user id. -/
structure Member where
  id : String
deriving DecidableEq, Repr

/-- `SquadAssignment` (party.py): the position a member has in the
party, and whether the member is hidden. (`SquadAssignment.copy` copies
both fields, which is the identity in this value semantics.) -/
structure SquadAssignment where
  position : Option Int
  hidden : Bool
deriving DecidableEq, Repr

/-- The `position` argument of the inner `assign` closure: Python calls
it with either a bool or an int, which is what the
`str(position) not in ('True', 'False')` test distinguishes. -/
inductive PosArg where
  | b (v : Bool)
  | i (v : Int)
deriving DecidableEq, Repr

/-- The mutable state of `construct_squad_assignments`: the remaining
position pool, the `results` dict (insertion-ordered) and the
`already_assigned` id set. -/
structure AssignState where
  positions : List Int
  results : List (Member × SquadAssignment)
  already : List String
deriving DecidableEq, Repr

/-- `existing.get(member)` / member-keyed dict lookup. -/
def memGet (d : List (Member × SquadAssignment)) (m : Member) :
    Option SquadAssignment :=
  (d.find? (fun e => e.1.id = m.id)).map (fun e => e.2)

/-- `results[member] = assignment`: member-keyed dict assignment,
overwriting in place when the key is present. -/
def memSet (d : List (Member × SquadAssignment)) (m : Member)
    (a : SquadAssignment) : List (Member × SquadAssignment) :=
  if d.any (fun e => e.1.id = m.id) then
    d.map (fun e => if e.1.id = m.id then (m, a) else e)
  else
    d ++ [(m, a)]

/-- The inner `assign(member, assignment, position)` closure. With no
assignment, a copy of the default assignment is used and `position`
falls back to `True`. An int position is taken out of the pool
(`list.remove`, raising `ValueError` when absent); `True` pops the next
pooled position (`IndexError` on an empty pool); `False` keeps the
assignment's own position and removes it from the pool when present
(`try/except ValueError: pass`). -/
def assign (default : SquadAssignment) (member : Member)
    (assignment0 : Option SquadAssignment) (position0 : PosArg)
    (st : AssignState) : Except String AssignState :=
  let assignment := match assignment0 with
    | Option.none => default
    | some a => a
  let position := match assignment0 with
    | Option.none => PosArg.b true
    | some _ => position0
  match position with
  | .i p =>
      if p ∈ st.positions then
        .ok { positions := st.positions.erase p,
              results := memSet st.results member
                { assignment with position := some p },
              already := member.id :: st.already }
      else .error "ValueError"
  | .b true =>
      match st.positions with
      | [] => .error "IndexError"
      | p :: rest =>
          .ok { positions := rest,
                results := memSet st.results member
                  { assignment with position := some p },
                already := member.id :: st.already }
  | .b false =>
      let positions1 := match assignment.position with
        | some p => st.positions.erase p
        | Option.none => st.positions
      .ok { positions := positions1,
            results := memSet st.results member assignment,
            already := member.id :: st.already }

/-- `self.get_member(user_id)`. -/
def getMember (members : List Member) (uid : String) : Option Member :=
  members.find? (fun m => m.id = uid)

/-- The `new_positions` loop: every entry whose user id resolves to a
member is assigned its explicit int position (ids that resolve to no
member are skipped). -/
def newPositionsLoop (default : SquadAssignment) (members : List Member)
    (existing : List (Member × SquadAssignment)) :
    List (String × Int) → AssignState → Except String AssignState
  | [], st => .ok st
  | (uid, pos) :: rest, st =>
      match getMember members uid with
      | Option.none => newPositionsLoop default members existing rest st
      | some member =>
          match assign default member (memGet existing member) (PosArg.i pos)
              st with
          | .ok st1 => newPositionsLoop default members existing rest st1
          | .error e => .error e

/-- The `assignments` loop: an explicit assignment with a position first
removes that position from the pool, raising
`ValueError('Duplicate positions set.')` when it is not available, then
assigns with `position=False`; an explicit assignment without a position
is assigned fresh (`assign` with its default arguments pops the next
pooled position). -/
def assignmentsLoop (default : SquadAssignment) :
    List (Member × SquadAssignment) → AssignState → Except String AssignState
  | [], st => .ok st
  | (m, a) :: rest, st =>
      match a.position with
      | some p =>
          if p ∈ st.positions then
            match assign default m (some a) (PosArg.b false)
                { st with positions := st.positions.erase p } with
            | .ok st1 => assignmentsLoop default rest st1
            | .error e => .error e
          else .error "Duplicate positions set."
      | Option.none =>
          match assign default m (some a) (PosArg.b true) st with
          | .ok st1 => assignmentsLoop default rest st1
          | .error e => .error e

/-- The final `for member in self._members.values()` loop: members not
yet assigned keep their existing assignment, reassigned (next pooled
position) when the config says so or their existing position is no
longer available. -/
def membersLoop (default : SquadAssignment)
    (existing : List (Member × SquadAssignment)) (reassign : Bool) :
    List Member → AssignState → Except String AssignState
  | [], st => .ok st
  | member :: rest, st =>
      if member.id ∈ st.already then
        membersLoop default existing reassign rest st
      else
        let assignment0 := memGet existing member
        let should_reassign :=
          match assignment0 with
          | Option.none => reassign
          | some a =>
              match a.position with
              | Option.none => true
              | some p => if p ∈ st.positions then reassign else true
        match assign default member assignment0 (PosArg.b should_reassign)
            st with
        | .ok st1 => membersLoop default existing reassign rest st1
        | .error e => .error e

/-- The per-party inputs of `construct_squad_assignments`: the roster
(`self._members.values()` in iteration order), the current
`self._squad_assignments`, and the `_default_config` fields it reads. -/
structure PartyInput where
  members : List Member
  existing : List (Member × SquadAssignment)
  position_priorities : List Int
  reassign : Bool
  default_assignment : SquadAssignment
deriving Repr

/-- The final `sorted(results.items(), key=lambda o: o[1].position)`
(every assignment carries an int position at this point). -/
def sortResults (rs : List (Member × SquadAssignment)) :
    List (Member × SquadAssignment) :=
  rs.mergeSort (fun x y => x.2.position.getD 0 ≤ y.2.position.getD 0)

/-- The state after the `if new_positions is not None` block, started
from the fresh pool (`positions = self._default_config
.position_priorities.copy()`, empty results, empty assigned set). -/
def csaStep1 (party : PartyInput)
    (new_positions : Option (List (String × Int))) :
    Except String AssignState :=
  match new_positions with
  | Option.none => Except.ok ⟨party.position_priorities, [], []⟩
  | some nps =>
      newPositionsLoop party.default_assignment party.members
        party.existing nps ⟨party.position_priorities, [], []⟩

/-- The state after the `if assignments is not None` block. -/
def csaStep2 (party : PartyInput)
    (assignments : Option (List (Member × SquadAssignment)))
    (st1 : AssignState) : Except String AssignState :=
  match assignments with
  | Option.none => Except.ok st1
  | some as_ => assignmentsLoop party.default_assignment as_ st1

/-- `ClientParty.construct_squad_assignments(assignments,
new_positions)`: processes the explicit position remap, then the
explicit assignment map, then the remaining roster, from a pool that
starts as a copy of the configured position priorities, and returns the
results sorted by position. -/
def construct_squad_assignments (party : PartyInput)
    (assignments : Option (List (Member × SquadAssignment)))
    (new_positions : Option (List (String × Int))) :
    Except String (List (Member × SquadAssignment)) :=
  match csaStep1 party new_positions with
  | .error e => .error e
  | .ok st1 =>
      match csaStep2 party assignments st1 with
      | .error e => .error e
      | .ok st2 =>
          match membersLoop party.default_assignment party.existing
              party.reassign party.members st2 with
          | .error e => .error e
          | .ok st3 => .ok (sortResults st3.results)

/-! ## Theorems -/

lemma dictSet_cons (e : String × StoredValue) (rest : Schema) (k : String)
    (v : StoredValue) :
    dictSet (e :: rest) k v =
      if e.1 = k then
        (k, v) :: rest.map (fun x => if x.1 = k then (k, v) else x)
      else e :: dictSet rest k v := by
  by_cases he : e.1 = k <;> by_cases hr : rest.any (fun x => x.1 = k) <;>
    simp [dictSet, he, hr]

lemma dictGet_dictSet (d : Schema) (k : String) (v : StoredValue) :
    dictGet (dictSet d k v) k = some v := by
  induction d with
  | nil => simp [dictGet, dictSet]
  | cons e rest ih =>
      rw [dictSet_cons]
      by_cases he : e.1 = k
      · simp [he, dictGet, List.find?]
      · simp only [if_neg he]
        simpa [dictGet, List.find?, he] using ih

/-- C3: `get_prop(k)` after `set_prop(k, v)` returns `v` round-tripped
through the coercion implied by `k`'s trailing type-suffix character:
for a `b`-suffixed key the stored value is `str(v)` and the result is
`False` exactly when that string lowercases to `"false"` (and also when
the key is absent); a `j`-suffixed key round-trips through JSON; a
`U`-suffixed key through `int` (propagating `int`'s error); every other
key through string conversion. -/
theorem meta_prop_roundtrip (schema : Schema) (k : String) (v : PyValue) :
    (k.takeRight 1 = "b" →
      set_prop schema k v =
        .ok (dictSet schema k (.str (pyStr v)), .str (pyStr v)) ∧
      get_prop (dictSet schema k (.str (pyStr v))) k =
        .ok (.bool (!(pyLower (pyStr v) == "false"))) ∧
      (dictGet schema k = Option.none →
        get_prop schema k = .ok (.bool false)))
    ∧ (k.takeRight 1 = "j" →
      set_prop schema k v = .ok (dictSet schema k (.json v), .json v) ∧
      get_prop (dictSet schema k (.json v)) k = .ok v)
    ∧ (k.takeRight 1 = "U" →
      (∀ n, pyInt v = .ok n →
        set_prop schema k v = .ok (dictSet schema k (.int n), .int n) ∧
        get_prop (dictSet schema k (.int n)) k = .ok (.int n)) ∧
      (∀ e, pyInt v = .error e → set_prop schema k v = .error e))
    ∧ (k.takeRight 1 ≠ "b" → k.takeRight 1 ≠ "j" → k.takeRight 1 ≠ "U" →
      set_prop schema k v =
        .ok (dictSet schema k (.str (pyStr v)), .str (pyStr v)) ∧
      get_prop (dictSet schema k (.str (pyStr v))) k =
        .ok (.str (pyStr v))) := by
  refine ⟨?_, ?_, ?_, ?_⟩
  · intro hb
    refine ⟨?_, ?_, ?_⟩
    · simp [set_prop, hb]
    · simp [get_prop, hb, dictGet_dictSet]
    · intro habs
      simp [get_prop, hb, habs]
  · intro hj
    refine ⟨?_, ?_⟩
    · simp [set_prop, hj]
    · simp [get_prop, hj, dictGet_dictSet]
  · intro hU
    refine ⟨?_, ?_⟩
    · intro n hn
      refine ⟨?_, ?_⟩
      · simp [set_prop, hU, hn]
      · simp [get_prop, hU, dictGet_dictSet, storedToPy, pyInt]
    · intro e he
      simp [set_prop, hU, he]
  · intro hb hj hU
    refine ⟨?_, ?_⟩
    · simp [set_prop, hb, hj, hU]
    · simp [get_prop, hb, hj, hU, dictGet_dictSet, storedToPy, pyStr]

/-- Witness for C3: the round-trip evaluated on one concrete key/value
pair per suffix class. -/
theorem meta_prop_roundtrip_witness :
    get_prop (dictSet [] "xb" (.str (pyStr (.bool true)))) "xb" =
      .ok (.bool true) ∧
    get_prop (dictSet [] "xj" (.json (.list [.int 1]))) "xj" =
      .ok (.list [.int 1]) ∧
    get_prop (dictSet [] "xU" (.int 5)) "xU" = .ok (.int 5) ∧
    get_prop (dictSet [] "xs" (.str (pyStr (.int 7)))) "xs" =
      .ok (.str "7") :=
  ⟨((meta_prop_roundtrip [] "xb" (.bool true)).1 rfl).2.1,
   ((meta_prop_roundtrip [] "xj" (.list [.int 1])).2.1 rfl).2,
   (((meta_prop_roundtrip [] "xU" (.int 5)).2.2.1 rfl).1 5 rfl).2,
   ((meta_prop_roundtrip [] "xs" (.int 7)).2.2.2 (by decide) (by decide)
     (by decide)).2⟩

lemma update_roles_cons (a : RosterMember) (l : List RosterMember)
    (leader : String) :
    update_roles (a :: l) leader =
      (if a.id = leader then ⟨a.id, some "CAPTAIN"⟩
       else ⟨a.id, Option.none⟩) :: update_roles l leader := by
  by_cases h : a.id = leader <;> simp [update_roles, update_role, h]

lemma update_roles_filter_nil (l : List RosterMember) (leader : String)
    (h : leader ∉ l.map RosterMember.id) :
    (update_roles l leader).filter
      (fun m => decide (m.role = some "CAPTAIN")) = [] := by
  induction l with
  | nil => rfl
  | cons a rest ih =>
      rw [update_roles_cons]
      simp only [List.map_cons, List.mem_cons] at h
      push_neg at h
      rw [if_neg (fun hh => h.1 hh.symm)]
      simp only [List.filter_cons]
      simp only [decide_eq_true_eq]
      rw [if_neg (by simp)]
      exact ih h.2

/-- C5: after `_update_roles(new_leader)` every member's role is
`CAPTAIN` exactly when they are the new leader, and on a roster with
distinct ids that contains the new leader exactly one member carries the
`CAPTAIN` role. -/
theorem update_roles_unique_captain (members : List RosterMember)
    (leader : String) :
    (∀ m ∈ update_roles members leader,
       (m.role = some "CAPTAIN" ↔ m.id = leader))
    ∧ (leader ∈ members.map RosterMember.id →
       (members.map RosterMember.id).Nodup →
       ((update_roles members leader).filter
          (fun m => decide (m.role = some "CAPTAIN"))).length = 1) := by
  constructor
  · intro m hm
    simp only [update_roles, List.map_map, List.mem_map] at hm
    obtain ⟨x, _, rfl⟩ := hm
    by_cases h : x.id = leader <;> simp [update_role, h, Function.comp]
  · intro hmem hnd
    induction members with
    | nil => simp at hmem
    | cons a rest ih =>
        rw [update_roles_cons]
        simp only [List.map_cons, List.nodup_cons] at hnd
        simp only [List.map_cons, List.mem_cons] at hmem
        by_cases h : a.id = leader
        · rw [if_pos h, List.filter_cons]
          simp only [decide_eq_true_eq]
          rw [if_pos trivial]
          rw [update_roles_filter_nil rest leader (h ▸ hnd.1)]
          rfl
        · rw [if_neg h, List.filter_cons]
          simp only [decide_eq_true_eq]
          rw [if_neg (by simp)]
          exact ih (hmem.resolve_left (fun hh => h hh.symm)) hnd.2

/-- Witness for C5: handing leadership from `u1` to `u2` on a concrete
two-member roster leaves exactly one `CAPTAIN`, namely `u2`. -/
theorem update_roles_unique_captain_witness :
    update_roles [⟨"u1", some "CAPTAIN"⟩, ⟨"u2", Option.none⟩] "u2" =
      [⟨"u1", Option.none⟩, ⟨"u2", some "CAPTAIN"⟩] ∧
    ((update_roles [⟨"u1", some "CAPTAIN"⟩, ⟨"u2", Option.none⟩]
        "u2").filter (fun m => decide (m.role = some "CAPTAIN"))).length =
      1 :=
  ⟨rfl,
   (update_roles_unique_captain [⟨"u1", some "CAPTAIN"⟩,
       ⟨"u2", Option.none⟩] "u2").2 (by decide) (by decide)⟩

lemma valid16_iff_perm (value : List Int) :
    (value.length = 16 ∧
      ((List.range 16).all (fun i => value.contains (Int.ofNat i))) = true) ↔
    value.Perm ((List.range 16).map Int.ofNat) := by
  constructor
  · rintro ⟨hlen, hall⟩
    have hnd : ((List.range 16).map Int.ofNat).Nodup :=
      (List.nodup_range 16).map (fun a b h => Int.ofNat_inj.mp h)
    have hsub : ((List.range 16).map Int.ofNat) ⊆ value := by
      intro x hx
      obtain ⟨i, hi, rfl⟩ := List.mem_map.mp hx
      have := List.all_eq_true.mp hall i hi
      simpa [List.elem_iff] using this
    have hsp := List.subperm_of_subset hnd hsub
    have hlen2 : value.length ≤ ((List.range 16).map Int.ofNat).length := by
      simp [hlen]
    exact (hsp.perm_of_length_le hlen2).symm
  · intro hp
    constructor
    · simpa using hp.length_eq
    · refine List.all_eq_true.mpr ?_
      intro i hi
      have : Int.ofNat i ∈ (List.range 16).map Int.ofNat :=
        List.mem_map.mpr ⟨i, hi, rfl⟩
      simpa [List.elem_iff] using hp.mem_iff.mpr this

/-- C8: the `position_priorities` setter accepts a value exactly when it
is a permutation of `0..15` (16 entries containing every integer 0-15,
which by counting forces no duplicates); any other value raises
`ValueError` and leaves the stored list unchanged. -/
theorem position_priorities_setter_spec (current value : List Int) :
    (positionPrioritiesSetter current value = (value, Option.none) ↔
      value.Perm ((List.range 16).map Int.ofNat))
    ∧ (¬ value.Perm ((List.range 16).map Int.ofNat) →
       positionPrioritiesSetter current value =
         (current, some positionPrioritiesError)) := by
  constructor
  · constructor
    · intro h
      rw [← valid16_iff_perm]
      by_cases hlen : value.length = 16
      · by_cases hall : ((List.range 16).all
            (fun i => value.contains (Int.ofNat i))) = true
        · exact ⟨hlen, hall⟩
        · rw [positionPrioritiesSetter, if_neg (by simp [hlen]),
            if_pos (by simp [Bool.not_eq_true] at hall ⊢; exact hall)] at h
          simp at h
      · rw [positionPrioritiesSetter, if_pos (by simp [hlen])] at h
        simp at h
    · intro hp
      obtain ⟨hlen, hall⟩ := (valid16_iff_perm value).mpr hp
      rw [positionPrioritiesSetter, if_neg (by simp [hlen]),
        if_neg (by rw [hall]; decide)]
  · intro hp
    have hnv := (not_iff_not.mpr (valid16_iff_perm value)).mpr hp
    by_cases hlen : value.length = 16
    · by_cases hall : ((List.range 16).all
          (fun i => value.contains (Int.ofNat i))) = true
      · exact absurd ⟨hlen, hall⟩ hnv
      · rw [positionPrioritiesSetter, if_neg (by simp [hlen]),
          if_pos (by simp [Bool.not_eq_true] at hall ⊢; exact hall)]
    · rw [positionPrioritiesSetter, if_pos (by simp [hlen])]

/-- Witness for C8: the identity permutation of 0..15 is accepted; the
empty list is rejected with the stored list left unchanged. -/
theorem position_priorities_setter_spec_witness :
    positionPrioritiesSetter [] ((List.range 16).map Int.ofNat) =
      ((List.range 16).map Int.ofNat, Option.none) ∧
    positionPrioritiesSetter ((List.range 16).map Int.ofNat) [] =
      ((List.range 16).map Int.ofNat, some positionPrioritiesError) :=
  ⟨(position_priorities_setter_spec [] _).1.mpr (List.Perm.refl _),
   (position_priorities_setter_spec _ []).2
     (fun h => by simpa using h.length_eq)⟩

/-- C6: `Auth._authenticate` makes up to 3 attempts; it retries only
when the failure's `message_code` is the exchange-code-not-found or
expired-exchange-code-session code, propagates any other
`HTTPException` immediately on its first occurrence, re-raises the
retryable error after the final permitted attempt, and never looks past
the first 3 outcomes. -/
theorem authenticate_retry_spec (outcomes : Nat → AuthOutcome) :
    (outcomes 0 = .success → authenticateRun outcomes = .ok) ∧
    (∀ c, outcomes 0 = .httpError c → c ∉ authRetryCodes →
       authenticateRun outcomes = .raised c) ∧
    (∀ c0, outcomes 0 = .httpError c0 → c0 ∈ authRetryCodes →
       (outcomes 1 = .success → authenticateRun outcomes = .ok) ∧
       (∀ c, outcomes 1 = .httpError c → c ∉ authRetryCodes →
          authenticateRun outcomes = .raised c) ∧
       (∀ c1, outcomes 1 = .httpError c1 → c1 ∈ authRetryCodes →
          (outcomes 2 = .success → authenticateRun outcomes = .ok) ∧
          (∀ c2, outcomes 2 = .httpError c2 →
             authenticateRun outcomes = .raised c2))) ∧
    (∀ other : Nat → AuthOutcome, other 0 = outcomes 0 →
       other 1 = outcomes 1 → other 2 = outcomes 2 →
       authenticateRun other = authenticateRun outcomes) := by
  refine ⟨?_, ?_, ?_, ?_⟩
  · intro h
    simp [authenticateRun, authGo, authMaxAttempts, h]
  · intro c h hn
    simp [authenticateRun, authGo, authMaxAttempts, h, hn]
  · intro c0 h0 hr0
    refine ⟨?_, ?_, ?_⟩
    · intro h1
      simp [authenticateRun, authGo, authMaxAttempts, h0, hr0, h1]
    · intro c h1 hn
      simp [authenticateRun, authGo, authMaxAttempts, h0, hr0, h1, hn]
    · intro c1 h1 hr1
      refine ⟨?_, ?_⟩
      · intro h2
        simp [authenticateRun, authGo, authMaxAttempts, h0, hr0, h1, hr1, h2]
      · intro c2 h2
        by_cases hr2 : c2 ∈ authRetryCodes <;>
          simp [authenticateRun, authGo, authMaxAttempts, h0, hr0, h1, hr1,
            h2, hr2]
  · intro other e0 e1 e2
    simp only [authenticateRun, authMaxAttempts, authGo, e0, e1, e2]

/-- Witness for C6: a retryable first failure followed by a success
authenticates; a non-retryable failure raises at once. -/
theorem authenticate_retry_spec_witness :
    authenticateRun (fun j =>
        if j = 0 then
          .httpError
            "errors.com.epicgames.account.oauth.exchange_code_not_found"
        else .success) = .ok ∧
    authenticateRun
        (fun _ => .httpError "errors.com.epicgames.common.server_error") =
      .raised "errors.com.epicgames.common.server_error" :=
  ⟨((authenticate_retry_spec _).2.2.1 _ rfl (by decide)).1 rfl,
   (authenticate_retry_spec _).2.1 _ rfl (by decide)⟩

/-- C9: `XMPPClient.restart()` called while a restart is already in
progress returns immediately as a no-op: the state is unchanged and no
teardown, task cancellation, reconnect or party resynchronization action
is performed. When no restart is in progress, actions are performed. -/
theorem restart_reentrant_noop (st : XmppState) :
    (st.restarting = true → xmppRestart st = (st, [])) ∧
    (st.restarting = false → (xmppRestart st).2 ≠ []) := by
  constructor
  · intro h
    simp [xmppRestart, h]
  · intro h
    by_cases ht : st.hasXmppTask <;> simp [xmppRestart, h, xmppClose, ht]

/-- Witness for C9: a fully-live client mid-restart is left untouched. -/
theorem restart_reentrant_noop_witness :
    xmppRestart ⟨true, true, true, true, true, true, true, true, true,
        true⟩ =
      (⟨true, true, true, true, true, true, true, true, true, true⟩, []) :=
  (restart_reentrant_noop
    ⟨true, true, true, true, true, true, true, true, true, true⟩).1 rfl

lemma patchLoop_replicate (corrected : Int) (n : Nat) : ∀ rev : Int,
    patchLoop rev
      (List.replicate n (PatchOutcome.httpError staleRevisionCode corrected) ++
        [PatchOutcome.success]) =
      some (.ok ((if n = 0 then rev else corrected) + 1)) := by
  induction n with
  | zero => intro rev; simp [patchLoop]
  | succ n ih =>
      intro rev
      simp only [List.replicate_succ, List.cons_append, patchLoop,
        eq_self_iff_true, if_true, List.append_eq]
      rw [ih corrected]
      cases n <;> simp

/-- C1: `Patchable.patch` submits tagged with the current revision; a
success increments the revision by one; a stale-revision rejection
overwrites the revision with the corrected one from the payload and
resubmits (after it, the next submission is tagged with the corrected
revision), with no retry cap (any number of consecutive stale
rejections before a success still succeeds); any other `HTTPException`
propagates. -/
theorem patch_stale_revision_loop (rev corrected : Int) (code : String)
    (trace : List PatchOutcome) :
    (patchLoop rev (PatchOutcome.success :: trace) = some (.ok (rev + 1))) ∧
    (code ≠ staleRevisionCode →
      patchLoop rev (PatchOutcome.httpError code corrected :: trace) =
        some (.error code)) ∧
    (patchLoop rev
        (PatchOutcome.httpError staleRevisionCode corrected :: trace) =
      patchLoop corrected trace) ∧
    (patchSubmissions rev
        (PatchOutcome.httpError staleRevisionCode corrected :: trace) =
      rev :: patchSubmissions corrected trace) ∧
    (∀ o rest, (patchSubmissions rev (o :: rest)).head? = some rev) ∧
    (∀ n, patchLoop rev
        (List.replicate n
            (PatchOutcome.httpError staleRevisionCode corrected) ++
          [PatchOutcome.success]) =
      some (.ok ((if n = 0 then rev else corrected) + 1))) := by
  refine ⟨rfl, ?_, ?_, ?_, ?_, ?_⟩
  · intro hne
    simp [patchLoop, hne]
  · simp [patchLoop]
  · simp [patchSubmissions]
  · intro o rest
    cases o with
    | success => rfl
    | httpError c k =>
        by_cases hc : c = staleRevisionCode <;> simp [patchSubmissions, hc]
  · exact fun n => patchLoop_replicate corrected n rev

/-- Witness for C1: one stale rejection correcting revision 1 to 5 and
then a success ends at revision 6, submitting with 1 then 5; a
non-stale error propagates. -/
theorem patch_stale_revision_loop_witness :
    patchLoop 1 [PatchOutcome.httpError staleRevisionCode 5,
      PatchOutcome.success] = some (.ok 6) ∧
    patchLoop 1 [PatchOutcome.httpError "errors.other" 5] =
      some (.error "errors.other") ∧
    patchSubmissions 1 [PatchOutcome.httpError staleRevisionCode 5,
      PatchOutcome.success] = [1, 5] :=
  ⟨((patch_stale_revision_loop 1 5 "errors.other"
        [PatchOutcome.success]).2.2.1).trans
     (patch_stale_revision_loop 5 5 "errors.other" []).1,
   (patch_stale_revision_loop 1 5 "errors.other" []).2.1 (by decide),
   rfl⟩

lemma foldl_dictDel_subset (deleted : List String) : ∀ u : Schema,
    ∀ e ∈ deleted.foldl dictDelIfPresent u, e ∈ u := by
  induction deleted with
  | nil => intro u e he; simpa using he
  | cons k rest ih =>
      intro u e he
      have := ih (dictDelIfPresent u k) e (by simpa using he)
      exact (List.eraseP_sublist u).subset this

lemma foldl_dictDel_length (deleted : List String) : ∀ u : Schema,
    (deleted.foldl dictDelIfPresent u).length ≤ u.length := by
  induction deleted with
  | nil => intro u; simp
  | cons k rest ih =>
      intro u
      exact le_trans (ih (dictDelIfPresent u k)) (List.length_eraseP_le u)

lemma foldl_dictDel_id (deleted : List String) : ∀ u : Schema,
    (∀ k ∈ deleted, k ∉ u.map Prod.fst) →
    deleted.foldl dictDelIfPresent u = u := by
  induction deleted with
  | nil => intro u _; rfl
  | cons k rest ih =>
      intro u h
      have hk : dictDelIfPresent u k = u := by
        apply List.eraseP_of_forall_not
        intro a ha
        have := h k (by simp)
        simp only [List.mem_map] at this
        push_neg at this
        simpa using fun hh => this a ha (by simpa using hh)
      rw [List.foldl_cons, hk]
      exact ih u (fun x hx => h x (by simp [hx]))

/-- C4 (amended): with no explicit `updated` mapping, the update set
passed to `do_patch` has at most `max` keys, all taken from the front of
the schema; it is non-empty provided the schema is non-empty, `max ≥ 1`
and no deleted key is among the first `max` schema keys. (As stated the
claim is false: the deletion pass can empty the payload, see
`patch_updated_payload_empty_cex`.) -/
theorem patch_updated_payload (schema : Schema) (deleted : List String)
    (max : Nat) :
    (patchUpdated schema Option.none deleted max).length ≤ max ∧
    (∀ e ∈ patchUpdated schema Option.none deleted max,
       e ∈ schema.take max) ∧
    (schema ≠ [] → 1 ≤ max →
      (∀ k ∈ deleted, k ∉ (schema.take max).map Prod.fst) →
      patchUpdated schema Option.none deleted max ≠ []) := by
  refine ⟨?_, ?_, ?_⟩
  · calc (patchUpdated schema Option.none deleted max).length
        ≤ (schema.take max).length :=
          foldl_dictDel_length deleted (schema.take max)
      _ ≤ max := by simp [List.length_take]
  · intro e he
    exact foldl_dictDel_subset deleted (schema.take max) e he
  · intro hne hmax hdel
    have : patchUpdated schema Option.none deleted max = schema.take max := by
      simp only [patchUpdated, get_schema]
      exact foldl_dictDel_id deleted (schema.take max) hdel
    rw [this]
    cases schema with
    | nil => exact absurd rfl hne
    | cons a rest =>
        cases max with
        | zero => omega
        | succ m => simp

/-- Witness for C4: on a one-key schema with nothing deleted the payload
is exactly that key and in particular non-empty. -/
theorem patch_updated_payload_witness :
    patchUpdated [("k", StoredValue.int 0)] Option.none [] 1 =
      [("k", StoredValue.int 0)] ∧
    patchUpdated [("k", StoredValue.int 0)] Option.none [] 1 ≠ [] :=
  ⟨rfl,
   (patch_updated_payload [("k", StoredValue.int 0)] [] 1).2.2
     (by simp) (by decide) (by simp)⟩

/-- Counterexample for C4 as stated: deleting the sole schema key while
passing no explicit `updated` mapping makes `patch` hand `do_patch` an
empty update set, so the submitted payload is not always non-empty. -/
theorem patch_updated_payload_empty_cex :
    patchUpdated [("a", StoredValue.int 0)] Option.none ["a"] 1 = [] := rfl

/-- C7: the presence decoder treats an absent `type` attribute as
available (with the other filters passed, a presence tuple is produced),
passes through any stanza whose `from` contains a hyphen or whose
top-level `type` is present but neither `available` nor `unavailable`;
and a message stanza is passed through unless its sender is the fixed
admin identity and its type is absent or `normal`. -/
theorem xml_stanza_filters (tree : XmlStanza) :
    (∀ f status, xmlGet tree "type" = Option.none →
       xmlGet tree "from" = some f → strIn "-" f = false →
       (scanChildren tree.children).1 = some status →
       ∀ dom platform, (pySplit f "@")[1]? = some dom →
       (pySplit dom ":")[2]? = some platform →
       process_presence tree =
         .ok (.presence ((pySplit f "@").headD "") platform Option.none
           status (scanChildren tree.children).2)) ∧
    (∀ f, xmlGet tree "from" = some f → strIn "-" f = true →
       process_presence tree = .ok .unhandled) ∧
    (∀ t, xmlGet tree "type" = some t → t ≠ "available" →
       t ≠ "unavailable" → process_presence tree = .ok .unhandled) ∧
    (xmlGetD tree "from" "" ≠ adminJid →
       process_message tree = .ok .unhandled) ∧
    (∀ t, xmlGet tree "type" = some t → t ≠ "normal" →
       process_message tree = .ok .unhandled) := by
  refine ⟨?_, ?_, ?_, ?_, ?_⟩
  · intro f status htype hfrom hnohyph hstat dom platform hdom hplat
    simp [process_presence, htype, hfrom, hnohyph, hstat, hdom, hplat]
  · intro f hfrom hhyph
    by_cases htype : (xmlGet tree "type" ≠ Option.none ∧
        xmlGet tree "type" ≠ some "available" ∧
        xmlGet tree "type" ≠ some "unavailable")
    · simp [process_presence, htype]
    · simp [process_presence, htype, hfrom, hhyph]
  · intro t htype hav hunav
    simp [process_presence, htype, hav, hunav]
  · intro hfrom
    simp [process_message, hfrom]
  · intro t htype hnorm
    by_cases hfrom : xmlGetD tree "from" "" = adminJid
    · simp [process_message, hfrom, htype, hnorm]
    · simp [process_message, hfrom]

/-- Witness for C7: a typeless presence from a user decodes to a
presence tuple; a party-addressed presence, an `error`-typed presence,
a non-admin message and a `chat`-typed admin message all pass
through. -/
theorem xml_stanza_filters_witness :
    process_presence ⟨[("from", "uid@prod.ol.epicgames.com:x:Windows:y")],
        [⟨"urn:status", some "hello"⟩]⟩ =
      .ok (.presence "uid" "Windows" Option.none "hello" Option.none) ∧
    process_presence ⟨[("from", "partyid-abc@muc.prod")], []⟩ =
      .ok .unhandled ∧
    process_presence ⟨[("type", "error")], []⟩ = .ok .unhandled ∧
    process_message ⟨[("from", "someone@else")], []⟩ = .ok .unhandled ∧
    process_message ⟨[("from", adminJid), ("type", "chat")], []⟩ =
      .ok .unhandled :=
  ⟨(xml_stanza_filters ⟨[("from", "uid@prod.ol.epicgames.com:x:Windows:y")],
       [⟨"urn:status", some "hello"⟩]⟩).1
     "uid@prod.ol.epicgames.com:x:Windows:y" "hello" (by decide) (by decide)
     (by decide) rfl "prod.ol.epicgames.com:x:Windows:y" "Windows" rfl rfl,
   (xml_stanza_filters ⟨[("from", "partyid-abc@muc.prod")], []⟩).2.1
     "partyid-abc@muc.prod" (by decide) (by decide),
   (xml_stanza_filters ⟨[("type", "error")], []⟩).2.2.1 "error" (by decide)
     (by decide) (by decide),
   (xml_stanza_filters ⟨[("from", "someone@else")], []⟩).2.2.2.1 (by decide),
   (xml_stanza_filters ⟨[("from", adminJid), ("type", "chat")], []⟩).2.2.2.2
     "chat" (by decide) (by decide)⟩

lemma scanChildren_fst_none (cs : List XmlChild)
    (h : ∀ c ∈ cs, strIn "status" c.tag = false) :
    (scanChildren cs).1 = Option.none := by
  suffices hgen : ∀ acc : Option String × Option String, acc.1 = Option.none →
      (cs.foldl
        (fun acc e =>
          let acc1 := if strIn "status" e.tag then (e.text, acc.2) else acc
          if strIn "show" e.tag then (acc1.1, e.text) else acc1) acc).1 =
        Option.none by
    exact hgen (Option.none, Option.none) rfl
  induction cs with
  | nil => intro acc hacc; simpa using hacc
  | cons c rest ih =>
      intro acc hacc
      rw [List.foldl_cons]
      apply ih (fun x hx => h x (by simp [hx]))
      have hc : strIn "status" c.tag = false := h c (by simp)
      by_cases hs : strIn "show" c.tag = true <;> simp [hc, hs, hacc]

/-- C10: a presence stanza that passes the type filter (type absent,
`available` or `unavailable`) and the addressing filter (`from` without
a hyphen) is still passed through as unhandled when the stanza has no
status child element. (The `from` hypothesis is part of the claim; the
code in fact passes such stanzas through regardless of `from`.) -/
theorem presence_without_status_unhandled (tree : XmlStanza)
    (htype : xmlGet tree "type" = Option.none ∨
      xmlGet tree "type" = some "available" ∨
      xmlGet tree "type" = some "unavailable")
    (_hfrom : ∀ f, xmlGet tree "from" = some f → strIn "-" f = false)
    (hstatus : ∀ c ∈ tree.children, strIn "status" c.tag = false) :
    process_presence tree = .ok .unhandled := by
  have hscan := scanChildren_fst_none tree.children hstatus
  have htypecond : ¬(xmlGet tree "type" ≠ Option.none ∧
      xmlGet tree "type" ≠ some "available" ∧
      xmlGet tree "type" ≠ some "unavailable") := by
    rcases htype with h | h | h <;> simp [h]
  by_cases hhyph : (match xmlGet tree "from" with
      | some f => strIn "-" f
      | Option.none => false) = true
  · simp [process_presence, htypecond, hhyph]
  · simp [process_presence, htypecond, hhyph, hscan]

/-- Witness for C10: an available presence from a user carrying only a
`show` child (no status) is passed through. -/
theorem presence_without_status_unhandled_witness :
    process_presence ⟨[("from", "uid@prod.ol.epicgames.com:x:Windows:y")],
        [⟨"urn:show", some "away"⟩]⟩ = .ok .unhandled :=
  presence_without_status_unhandled
    ⟨[("from", "uid@prod.ol.epicgames.com:x:Windows:y")],
      [⟨"urn:show", some "away"⟩]⟩
    (Or.inl rfl) (fun f hf => by cases hf; rfl) (by decide)

/-- The ids of the results dict, in order. -/
def resultIds (rs : List (Member × SquadAssignment)) : List String :=
  rs.map (fun e => e.1.id)

/-- The positions of the results dict, in order. -/
def resultPositions (rs : List (Member × SquadAssignment)) :
    List (Option Int) :=
  rs.map (fun e => e.2.position)

/-- The invariant of the assignment state: the pool has no duplicates,
the results have pairwise distinct member ids and pairwise distinct
positions, and no position held by a result is still in the pool. -/
def Inv (st : AssignState) : Prop :=
  st.positions.Nodup ∧
  (resultIds st.results).Nodup ∧
  (resultPositions st.results).Nodup ∧
  ∀ e ∈ st.results, ∀ p : Int, e.2.position = some p → p ∉ st.positions

lemma memSet_mem (rs : List (Member × SquadAssignment)) (m : Member)
    (a : SquadAssignment) :
    ∀ e ∈ memSet rs m a, e = (m, a) ∨ e ∈ rs := by
  intro e he
  unfold memSet at he
  by_cases h : rs.any (fun x => x.1.id = m.id)
  · rw [if_pos h] at he
    obtain ⟨x, hx, hxe⟩ := List.mem_map.mp he
    by_cases hid : x.1.id = m.id
    · left; rw [← hxe, if_pos hid]
    · right; rw [← hxe, if_neg hid]; exact hx
  · rw [if_neg h] at he
    rcases List.mem_append.mp he with h1 | h1
    · right; exact h1
    · left; simpa using h1

lemma memSet_ids_of_any (rs : List (Member × SquadAssignment)) (m : Member)
    (a : SquadAssignment) (h : rs.any (fun x => x.1.id = m.id) = true) :
    resultIds (memSet rs m a) = resultIds rs := by
  unfold memSet resultIds
  rw [if_pos h, List.map_map]
  apply List.map_congr_left
  intro x _
  by_cases hid : x.1.id = m.id <;> simp [hid, Function.comp]

lemma memSet_ids_nodup (rs : List (Member × SquadAssignment)) (m : Member)
    (a : SquadAssignment) (h : (resultIds rs).Nodup) :
    (resultIds (memSet rs m a)).Nodup := by
  by_cases hany : rs.any (fun x => x.1.id = m.id) = true
  · rw [memSet_ids_of_any rs m a hany]; exact h
  · unfold memSet resultIds
    rw [if_neg hany]
    rw [List.map_append]
    simp only [List.map_cons, List.map_nil]
    rw [List.nodup_append]
    refine ⟨h, List.nodup_singleton _, ?_⟩
    intro x hx
    simp only [List.mem_map] at hx
    obtain ⟨y, hy, hxy⟩ := hx
    simp only [List.any_eq_true, not_exists, not_and] at hany
    push_neg at hany
    simp only [List.mem_singleton]
    intro hc
    exact absurd (by rw [hxy, hc]; simp) (hany y hy)

lemma replace_positions_mem (m : Member) (a : SquadAssignment)
    (rs : List (Member × SquadAssignment)) :
    ∀ q ∈ resultPositions
        (rs.map (fun e => if e.1.id = m.id then (m, a) else e)),
      q = a.position ∨ q ∈ resultPositions rs := by
  intro q hq
  unfold resultPositions at hq
  rw [List.map_map] at hq
  obtain ⟨x, hx, hxq⟩ := List.mem_map.mp hq
  by_cases hid : x.1.id = m.id
  · left; simp [← hxq, Function.comp, hid]
  · right
    unfold resultPositions
    refine List.mem_map.mpr ⟨x, hx, ?_⟩
    simpa [Function.comp, hid] using hxq

lemma replace_positions_nodup (m : Member) (a : SquadAssignment) :
    ∀ rs : List (Member × SquadAssignment), (resultIds rs).Nodup →
    (resultPositions rs).Nodup → a.position ∉ resultPositions rs →
    (resultPositions
      (rs.map (fun e => if e.1.id = m.id then (m, a) else e))).Nodup := by
  intro rs
  induction rs with
  | nil => intro _ _ _; simp [resultPositions]
  | cons e rest ih =>
      intro hids hpos hnotin
      simp only [resultIds, List.map_cons, List.nodup_cons] at hids
      simp only [resultPositions, List.map_cons, List.nodup_cons] at hpos
      simp only [resultPositions, List.map_cons, List.mem_cons] at hnotin
      push_neg at hnotin
      by_cases hid : e.1.id = m.id
      · have hrest : rest.map (fun x => if x.1.id = m.id then (m, a) else x)
            = rest := by
          conv_rhs => rw [← List.map_id rest]
          apply List.map_congr_left
          intro x hx
          have : x.1.id ≠ m.id := by
            intro hc
            exact hids.1 (List.mem_map.mpr ⟨x, hx, by rw [hc, ← hid]⟩)
          simp [this]
        simp only [List.map_cons, if_pos hid, resultPositions,
          List.nodup_cons, hrest]
        exact ⟨by simpa [resultPositions] using hnotin.2, hpos.2⟩
      · simp only [List.map_cons, if_neg hid, resultPositions,
          List.nodup_cons]
        constructor
        · intro hc
          rcases replace_positions_mem m a rest e.2.position
              (by simpa [resultPositions] using hc) with h | h
          · exact hnotin.1 h.symm
          · exact hpos.1 (by simpa [resultPositions] using h)
        · have := ih hids.2 hpos.2 (by simpa [resultPositions] using hnotin.2)
          simpa [resultPositions] using this

lemma memSet_positions_nodup (rs : List (Member × SquadAssignment))
    (m : Member) (a : SquadAssignment)
    (hids : (resultIds rs).Nodup)
    (hpos : (resultPositions rs).Nodup)
    (hnotin : a.position ∉ resultPositions rs) :
    (resultPositions (memSet rs m a)).Nodup := by
  unfold memSet
  by_cases hany : rs.any (fun x => x.1.id = m.id) = true
  · rw [if_pos hany]
    exact replace_positions_nodup m a rs hids hpos hnotin
  · rw [if_neg hany]
    unfold resultPositions
    rw [List.map_append]
    simp only [List.map_cons, List.map_nil]
    rw [List.nodup_append]
    refine ⟨hpos, List.nodup_singleton _, ?_⟩
    intro q hq hq2
    simp only [List.mem_cons, List.not_mem_nil, or_false] at hq2
    exact hnotin (hq2 ▸ hq)

lemma inv_pool_not_in_results (st : AssignState) (hinv : Inv st) (p : Int)
    (hp : p ∈ st.positions) :
    (some p : Option Int) ∉ resultPositions st.results := by
  intro hmem
  obtain ⟨e, he, hpe⟩ := List.mem_map.mp hmem
  exact hinv.2.2.2 e he p hpe hp

lemma assign_ok_cases (d : SquadAssignment) (m : Member)
    (a0 : Option SquadAssignment) (p0 : PosArg) (st st1 : AssignState)
    (h : assign d m a0 p0 st = .ok st1) :
    (∃ p rest, st.positions = p :: rest ∧
      ((a0 = Option.none ∧
         st1 = ⟨rest, memSet st.results m { d with position := some p },
           m.id :: st.already⟩) ∨
       (∃ a, a0 = some a ∧ p0 = PosArg.b true ∧
         st1 = ⟨rest, memSet st.results m { a with position := some p },
           m.id :: st.already⟩))) ∨
    (∃ a p, a0 = some a ∧ p0 = PosArg.i p ∧ p ∈ st.positions ∧
      st1 = ⟨st.positions.erase p,
        memSet st.results m { a with position := some p },
        m.id :: st.already⟩) ∨
    (∃ a, a0 = some a ∧ p0 = PosArg.b false ∧
      st1 = ⟨(match a.position with
              | some p => st.positions.erase p
              | Option.none => st.positions),
        memSet st.results m a, m.id :: st.already⟩) := by
  cases a0 with
  | none =>
      cases hpos : st.positions with
      | nil => simp [assign, hpos] at h
      | cons p rest =>
          left
          refine ⟨p, rest, rfl, Or.inl ⟨rfl, ?_⟩⟩
          simp [assign, hpos] at h
          exact h.symm
  | some a =>
      cases p0 with
      | i p =>
          by_cases hp : p ∈ st.positions
          · right; left
            refine ⟨a, p, rfl, rfl, hp, ?_⟩
            simp [assign, hp] at h
            exact h.symm
          · simp [assign, hp] at h
      | b v =>
          cases v with
          | true =>
              cases hpos : st.positions with
              | nil => simp [assign, hpos] at h
              | cons p rest =>
                  left
                  refine ⟨p, rest, rfl, Or.inr ⟨a, rfl, rfl, ?_⟩⟩
                  simp [assign, hpos] at h
                  exact h.symm
          | false =>
              right; right
              refine ⟨a, rfl, rfl, ?_⟩
              simp [assign] at h
              exact h.symm

lemma inv_after_insert (st : AssignState) (hinv : Inv st) (m : Member)
    (a1 : SquadAssignment) (pos1 : List Int) (already1 : List String)
    (hpos1nd : pos1.Nodup)
    (hpos1sub : pos1 ⊆ st.positions)
    (hnotin : a1.position ∉ resultPositions st.results)
    (hnotpool : ∀ p, a1.position = some p → p ∉ pos1) :
    Inv ⟨pos1, memSet st.results m a1, already1⟩ := by
  refine ⟨hpos1nd, memSet_ids_nodup _ _ _ hinv.2.1,
    memSet_positions_nodup _ _ _ hinv.2.1 hinv.2.2.1 hnotin, ?_⟩
  intro e he p hpe
  rcases memSet_mem _ _ _ e he with rfl | hmem
  · exact hnotpool p hpe
  · intro hc
    exact hinv.2.2.2 e hmem p hpe (hpos1sub hc)

lemma assign_inv (d : SquadAssignment) (m : Member)
    (a0 : Option SquadAssignment) (p0 : PosArg) (st st1 : AssignState)
    (hinv : Inv st)
    (hfalse : ∀ a, a0 = some a → p0 = PosArg.b false →
      ∃ p, a.position = some p ∧
        (some p : Option Int) ∉ resultPositions st.results)
    (h : assign d m a0 p0 st = .ok st1) : Inv st1 := by
  rcases assign_ok_cases d m a0 p0 st st1 h with
    ⟨p, rest, hpos, hcase⟩ | ⟨a, p, ha0, hp0, hp, hst1⟩ |
    ⟨a, ha0, hp0, hst1⟩
  · have hnd : (p :: rest).Nodup := hpos ▸ hinv.1
    have hnotin : (some p : Option Int) ∉ resultPositions st.results :=
      inv_pool_not_in_results st hinv p (by rw [hpos]; exact List.mem_cons_self p rest)
    rcases hcase with ⟨_, hst1⟩ | ⟨a, _, _, hst1⟩ <;>
      · rw [hst1]
        exact inv_after_insert st hinv m _ rest _
          ((List.nodup_cons.mp hnd).2)
          (by rw [hpos]; exact List.subset_cons_self p rest)
          hnotin
          (fun q hq => by
            simp only at hq
            cases hq
            exact (List.nodup_cons.mp hnd).1)
  · rw [hst1]
    exact inv_after_insert st hinv m _ _ _
      (hinv.1.erase p)
      (List.erase_subset p st.positions)
      (inv_pool_not_in_results st hinv p hp)
      (fun q hq => by
        simp only at hq
        cases hq
        exact fun hc => ((hinv.1.mem_erase_iff).mp hc).1 rfl)
  · obtain ⟨p, hap, hnotin⟩ := hfalse a ha0 hp0
    rw [hst1, hap]
    exact inv_after_insert st hinv m _ _ _
      (hinv.1.erase p)
      (List.erase_subset p st.positions)
      (hap ▸ hnotin)
      (fun q hq => by
        rw [hap] at hq
        cases hq
        exact fun hc => ((hinv.1.mem_erase_iff).mp hc).1 rfl)

lemma assign_pool (d : SquadAssignment) (m : Member)
    (a0 : Option SquadAssignment) (p0 : PosArg) (st st1 : AssignState)
    (h : assign d m a0 p0 st = .ok st1) :
    st1.positions ⊆ st.positions ∧
    (st.positions.Nodup → st1.positions.Nodup) := by
  rcases assign_ok_cases d m a0 p0 st st1 h with
    ⟨p, rest, hpos, hcase⟩ | ⟨a, p, ha0, hp0, hp, hst1⟩ |
    ⟨a, ha0, hp0, hst1⟩
  · rcases hcase with ⟨_, hst1⟩ | ⟨a, _, _, hst1⟩ <;>
      · rw [hst1]
        exact ⟨by rw [hpos]; exact List.subset_cons_self p rest,
          fun hnd => by rw [hpos] at hnd; exact (List.nodup_cons.mp hnd).2⟩
  · rw [hst1]
    exact ⟨List.erase_subset p st.positions, fun hnd => hnd.erase p⟩
  · rw [hst1]
    cases hap : a.position with
    | none => simp [hap]
    | some p =>
        simp only [hap]
        exact ⟨List.erase_subset p st.positions, fun hnd => hnd.erase p⟩

lemma newPositionsLoop_inv (d : SquadAssignment) (ms : List Member)
    (ex : List (Member × SquadAssignment)) :
    ∀ nps (st st1 : AssignState), Inv st →
      newPositionsLoop d ms ex nps st = .ok st1 → Inv st1 := by
  intro nps
  induction nps with
  | nil =>
      intro st st1 hinv h
      simp only [newPositionsLoop] at h
      cases h
      exact hinv
  | cons hd rest ih =>
      intro st st1 hinv h
      obtain ⟨uid, pos⟩ := hd
      simp only [newPositionsLoop] at h
      cases hm : getMember ms uid with
      | none =>
          simp only [hm] at h
          exact ih st st1 hinv h
      | some member =>
          simp only [hm] at h
          cases ha : assign d member (memGet ex member) (PosArg.i pos) st with
          | error e =>
              simp only [ha] at h
              exact Except.noConfusion h
          | ok st2 =>
              simp only [ha] at h
              exact ih st2 st1
                (assign_inv d member _ _ st st2 hinv
                  (fun a _ hps => by cases hps) ha) h

lemma assignmentsLoop_inv (d : SquadAssignment) :
    ∀ l (st st1 : AssignState), Inv st →
      assignmentsLoop d l st = .ok st1 → Inv st1 := by
  intro l
  induction l with
  | nil =>
      intro st st1 hinv h
      simp only [assignmentsLoop] at h
      cases h
      exact hinv
  | cons hd rest ih =>
      intro st st1 hinv h
      obtain ⟨m, a⟩ := hd
      simp only [assignmentsLoop] at h
      cases hap : a.position with
      | some p =>
          simp only [hap] at h
          by_cases hp : p ∈ st.positions
          · rw [if_pos hp] at h
            have hinv2 : Inv { st with positions := st.positions.erase p } := by
              refine ⟨hinv.1.erase p, hinv.2.1, hinv.2.2.1, ?_⟩
              intro e he q hq hc
              exact hinv.2.2.2 e he q hq (List.erase_subset _ _ hc)
            cases ha : assign d m (some a) (PosArg.b false)
                { st with positions := st.positions.erase p } with
            | error e =>
                simp only [ha] at h
                exact Except.noConfusion h
            | ok st2 =>
                simp only [ha] at h
                refine ih st2 st1 ?_ h
                refine assign_inv d m (some a) (PosArg.b false) _ st2 hinv2
                  ?_ ha
                intro a2 ha2 _
                cases ha2
                exact ⟨p, hap, inv_pool_not_in_results st hinv p hp⟩
          · rw [if_neg hp] at h
            cases h
      | none =>
          simp only [hap] at h
          cases ha : assign d m (some a) (PosArg.b true) st with
          | error e =>
              simp only [ha] at h
              exact Except.noConfusion h
          | ok st2 =>
              simp only [ha] at h
              exact ih st2 st1
                (assign_inv d m (some a) (PosArg.b true) st st2 hinv
                  (fun a2 _ hps => by cases hps) ha) h

lemma membersLoop_inv (d : SquadAssignment)
    (ex : List (Member × SquadAssignment)) (reassign : Bool) :
    ∀ ms (st st1 : AssignState), Inv st →
      membersLoop d ex reassign ms st = .ok st1 → Inv st1 := by
  intro ms
  induction ms with
  | nil =>
      intro st st1 hinv h
      simp only [membersLoop] at h
      cases h
      exact hinv
  | cons member rest ih =>
      intro st st1 hinv h
      simp only [membersLoop] at h
      by_cases hal : member.id ∈ st.already
      · rw [if_pos hal] at h
        exact ih st st1 hinv h
      · rw [if_neg hal] at h
        cases hmg : memGet ex member with
        | none =>
            simp only [hmg] at h
            cases ha : assign d member Option.none (PosArg.b reassign) st with
            | error e =>
                simp only [ha] at h
                exact Except.noConfusion h
            | ok st2 =>
                simp only [ha] at h
                exact ih st2 st1
                  (assign_inv d member Option.none (PosArg.b reassign) st st2
                    hinv (fun a2 ha2 _ => by cases ha2) ha) h
        | some a =>
            simp only [hmg] at h
            cases hap : a.position with
            | none =>
                simp only [hap] at h
                cases ha : assign d member (some a) (PosArg.b true) st with
                | error e =>
                    simp only [ha] at h
                    exact Except.noConfusion h
                | ok st2 =>
                    simp only [ha] at h
                    exact ih st2 st1
                      (assign_inv d member (some a) (PosArg.b true) st st2
                        hinv (fun a2 _ hps => by cases hps) ha) h
            | some p =>
                simp only [hap] at h
                by_cases hp : p ∈ st.positions
                · rw [if_pos hp] at h
                  cases ha : assign d member (some a)
                      (PosArg.b reassign) st with
                  | error e =>
                      simp only [ha] at h
                      exact Except.noConfusion h
                  | ok st2 =>
                      simp only [ha] at h
                      refine ih st2 st1 ?_ h
                      refine assign_inv d member (some a) (PosArg.b reassign)
                        st st2 hinv ?_ ha
                      intro a2 ha2 _
                      cases ha2
                      exact ⟨p, hap, inv_pool_not_in_results st hinv p hp⟩
                · rw [if_neg hp] at h
                  cases ha : assign d member (some a) (PosArg.b true) st with
                  | error e =>
                      simp only [ha] at h
                      exact Except.noConfusion h
                  | ok st2 =>
                      simp only [ha] at h
                      exact ih st2 st1
                        (assign_inv d member (some a) (PosArg.b true) st st2
                          hinv (fun a2 _ hps => by cases hps) ha) h

lemma assignmentsLoop_sub (d : SquadAssignment) :
    ∀ l (st st1 : AssignState), assignmentsLoop d l st = .ok st1 →
      st1.positions ⊆ st.positions ∧
      (st.positions.Nodup → st1.positions.Nodup) := by
  intro l
  induction l with
  | nil =>
      intro st st1 h
      simp only [assignmentsLoop] at h
      cases h
      exact ⟨fun x hx => hx, fun hnd => hnd⟩
  | cons hd rest ih =>
      intro st st1 h
      obtain ⟨m, a⟩ := hd
      simp only [assignmentsLoop] at h
      cases hap : a.position with
      | some p =>
          simp only [hap] at h
          by_cases hp : p ∈ st.positions
          · rw [if_pos hp] at h
            cases ha : assign d m (some a) (PosArg.b false)
                { st with positions := st.positions.erase p } with
            | error e =>
                simp only [ha] at h
                exact Except.noConfusion h
            | ok st2 =>
                simp only [ha] at h
                have h1 := ih st2 st1 h
                have h2 := assign_pool d m (some a) (PosArg.b false) _ st2 ha
                refine ⟨fun x hx =>
                  List.erase_subset _ _ (h2.1 (h1.1 hx)), fun hnd => ?_⟩
                exact h1.2 (h2.2 (hnd.erase p))
          · rw [if_neg hp] at h
            exact Except.noConfusion h
      | none =>
          simp only [hap] at h
          cases ha : assign d m (some a) (PosArg.b true) st with
          | error e =>
              simp only [ha] at h
              exact Except.noConfusion h
          | ok st2 =>
              simp only [ha] at h
              have h1 := ih st2 st1 h
              have h2 := assign_pool d m (some a) (PosArg.b true) st st2 ha
              exact ⟨fun x hx => h2.1 (h1.1 hx), fun hnd => h1.2 (h2.2 hnd)⟩

lemma assignmentsLoop_entry (d : SquadAssignment) :
    ∀ l (st st1 : AssignState), assignmentsLoop d l st = .ok st1 →
      ∀ e ∈ l, ∀ p : Int, e.2.position = some p → p ∈ st.positions := by
  intro l
  induction l with
  | nil =>
      intro st st1 _ e he
      simp at he
  | cons hd rest ih =>
      intro st st1 h e he p hep
      obtain ⟨m, a⟩ := hd
      simp only [assignmentsLoop] at h
      cases hap : a.position with
      | some q =>
          simp only [hap] at h
          by_cases hq : q ∈ st.positions
          · rw [if_pos hq] at h
            cases ha : assign d m (some a) (PosArg.b false)
                { st with positions := st.positions.erase q } with
            | error er =>
                simp only [ha] at h
                exact Except.noConfusion h
            | ok st2 =>
                simp only [ha] at h
                rcases List.mem_cons.mp he with rfl | hrest
                · simp only at hep
                  rw [hap] at hep
                  cases hep
                  exact hq
                · have hmem := ih st2 st1 h e hrest p hep
                  have h2 := assign_pool d m (some a) (PosArg.b false) _ st2 ha
                  exact List.erase_subset _ _ (h2.1 hmem)
          · rw [if_neg hq] at h
            exact Except.noConfusion h
      | none =>
          simp only [hap] at h
          cases ha : assign d m (some a) (PosArg.b true) st with
          | error er =>
              simp only [ha] at h
              exact Except.noConfusion h
          | ok st2 =>
              simp only [ha] at h
              rcases List.mem_cons.mp he with rfl | hrest
              · simp only at hep
                rw [hap] at hep
                exact Option.noConfusion hep
              · have hmem := ih st2 st1 h e hrest p hep
                have h2 := assign_pool d m (some a) (PosArg.b true) st st2 ha
                exact h2.1 hmem

lemma assignmentsLoop_pairwise (d : SquadAssignment) :
    ∀ l (st st1 : AssignState), st.positions.Nodup →
      assignmentsLoop d l st = .ok st1 →
      l.Pairwise (fun x y => ∀ p : Int,
        x.2.position = some p → y.2.position ≠ some p) := by
  intro l
  induction l with
  | nil => intro st st1 _ _; exact List.Pairwise.nil
  | cons hd rest ih =>
      intro st st1 hnd h
      obtain ⟨m, a⟩ := hd
      simp only [assignmentsLoop] at h
      cases hap : a.position with
      | some p =>
          simp only [hap] at h
          by_cases hp : p ∈ st.positions
          · rw [if_pos hp] at h
            cases ha : assign d m (some a) (PosArg.b false)
                { st with positions := st.positions.erase p } with
            | error er =>
                simp only [ha] at h
                exact Except.noConfusion h
            | ok st2 =>
                simp only [ha] at h
                have hpool := assign_pool d m (some a) (PosArg.b false) _ st2 ha
                refine List.Pairwise.cons ?_ (ih st2 st1 (hpool.2 (hnd.erase p)) h)
                intro y hy q hq hyq
                simp only at hq
                rw [hap] at hq
                cases hq
                have hmem := assignmentsLoop_entry d rest st2 st1 h y hy p hyq
                have hq2 : p ∈ st.positions.erase p := hpool.1 hmem
                exact ((hnd.mem_erase_iff).mp hq2).1 rfl
          · rw [if_neg hp] at h
            exact Except.noConfusion h
      | none =>
          simp only [hap] at h
          cases ha : assign d m (some a) (PosArg.b true) st with
          | error er =>
              simp only [ha] at h
              exact Except.noConfusion h
          | ok st2 =>
              simp only [ha] at h
              have hpool := assign_pool d m (some a) (PosArg.b true) st st2 ha
              refine List.Pairwise.cons ?_ (ih st2 st1 (hpool.2 hnd) h)
              intro y hy q hq
              simp only at hq
              rw [hap] at hq
              exact Option.noConfusion hq

/-- C2: for every call to `construct_squad_assignments` with a valid
16-slot priority permutation that returns a result, no two visible
(non-hidden) members with distinct ids are assigned the same position
(in fact no two members at all are); and no two explicit assignments
processed by the call claimed the same slot — two explicit assignments
with the same position make the call raise the duplicate-position
`ValueError` instead of returning. -/
theorem construct_squad_assignments_spec
    (party : PartyInput)
    (assignments : Option (List (Member × SquadAssignment)))
    (new_positions : Option (List (String × Int)))
    (res : List (Member × SquadAssignment))
    (hperm : party.position_priorities.Perm ((List.range 16).map Int.ofNat))
    (hok : construct_squad_assignments party assignments new_positions =
      .ok res) :
    (∀ e1 ∈ res, ∀ e2 ∈ res, e1.1.id ≠ e2.1.id → e1.2.hidden = false →
       e2.2.hidden = false → e1.2.position ≠ e2.2.position) ∧
    (∀ as_, assignments = some as_ →
       as_.Pairwise (fun x y => ∀ p : Int,
         x.2.position = some p → y.2.position ≠ some p)) := by
  have hnd0 : party.position_priorities.Nodup :=
    hperm.nodup_iff.mpr
      ((List.nodup_range 16).map (fun a b h => Int.ofNat_inj.mp h))
  have hinv0 : Inv ⟨party.position_priorities, [], []⟩ :=
    ⟨hnd0, by simp [resultIds], by simp [resultPositions], by simp⟩
  simp only [construct_squad_assignments] at hok
  cases h1 : csaStep1 party new_positions with
  | error e =>
      simp only [h1] at hok
      exact Except.noConfusion hok
  | ok st1 =>
      simp only [h1] at hok
      have hinv1 : Inv st1 := by
        unfold csaStep1 at h1
        cases new_positions with
        | none => cases h1; exact hinv0
        | some nps =>
            exact newPositionsLoop_inv party.default_assignment party.members
              party.existing nps _ st1 hinv0 h1
      cases h2 : csaStep2 party assignments st1 with
      | error e =>
          simp only [h2] at hok
          exact Except.noConfusion hok
      | ok st2 =>
          simp only [h2] at hok
          have hinv2 : Inv st2 := by
            unfold csaStep2 at h2
            cases assignments with
            | none => cases h2; exact hinv1
            | some as_ =>
                exact assignmentsLoop_inv party.default_assignment as_ st1
                  st2 hinv1 h2
          cases h3 : membersLoop party.default_assignment party.existing
              party.reassign party.members st2 with
          | error e =>
              simp only [h3] at hok
              exact Except.noConfusion hok
          | ok st3 =>
              simp only [h3] at hok
              have hinv3 : Inv st3 :=
                membersLoop_inv party.default_assignment party.existing
                  party.reassign party.members st2 st3 hinv2 h3
              cases hok
              constructor
              · have hpermres : (sortResults st3.results).Perm st3.results := by
                  unfold sortResults
                  exact List.mergeSort_perm st3.results _
                have hmapperm : (resultPositions
                    (sortResults st3.results)).Perm
                    (resultPositions st3.results) := by
                  unfold resultPositions
                  exact hpermres.map _
                have hndpos : (resultPositions (sortResults st3.results)).Nodup
                    := hmapperm.nodup_iff.mpr hinv3.2.2.1
                have hpw : (sortResults st3.results).Pairwise
                    (fun x y => x.2.position ≠ y.2.position) := by
                  have hp2 : (resultPositions
                      (sortResults st3.results)).Pairwise (· ≠ ·) := hndpos
                  unfold resultPositions at hp2
                  exact List.pairwise_map.mp hp2
                intro e1 he1 e2 he2 hne _ _
                have hne2 : e1 ≠ e2 := fun hcc => hne (by rw [hcc])
                have hsym : Symmetric
                    (fun (x y : Member × SquadAssignment) =>
                      x.2.position ≠ y.2.position) :=
                  fun x y h hh => h hh.symm
                exact List.Pairwise.forall hsym hpw he1 he2 hne2
              · intro as_ has
                subst has
                simp only [csaStep2] at h2
                exact assignmentsLoop_pairwise party.default_assignment as_ st1 st2 hinv1.1 h2

unseal List.merge List.mergeSort in
/-- Witness for C2: a two-member party with an explicit remap and an
explicit assignment; the two resulting visible positions are distinct. -/
theorem construct_squad_assignments_spec_witness :
    construct_squad_assignments
      ⟨[⟨"a"⟩, ⟨"b"⟩], [], (List.range 16).map Int.ofNat, true,
        ⟨Option.none, false⟩⟩
      (some [(⟨"b"⟩, ⟨some 3, false⟩)]) (some [("a", 7)]) =
      .ok [(⟨"a"⟩, ⟨some 0, false⟩), (⟨"b"⟩, ⟨some 3, false⟩)] ∧
    (∀ e1 ∈ ([(⟨"a"⟩, ⟨some 0, false⟩), (⟨"b"⟩, ⟨some 3, false⟩)] :
        List (Member × SquadAssignment)),
     ∀ e2 ∈ ([(⟨"a"⟩, ⟨some 0, false⟩), (⟨"b"⟩, ⟨some 3, false⟩)] :
        List (Member × SquadAssignment)),
       e1.1.id ≠ e2.1.id → e1.2.hidden = false → e2.2.hidden = false →
       e1.2.position ≠ e2.2.position) :=
  ⟨rfl,
   (construct_squad_assignments_spec
     ⟨[⟨"a"⟩, ⟨"b"⟩], [], (List.range 16).map Int.ofNat, true,
       ⟨Option.none, false⟩⟩
     (some [(⟨"b"⟩, ⟨some 3, false⟩)]) (some [("a", 7)])
     [(⟨"a"⟩, ⟨some 0, false⟩), (⟨"b"⟩, ⟨some 3, false⟩)]
     (List.Perm.refl _) rfl).1⟩

end Rebootpy
